import Mathlib

/-!
Verification of the AVLdb balanced-tree engine (`AVL_Database.cpp`).

The C++ source is embedded shallowly: nodes become an inductive tree with the
cached height stored in every node, the tree object (root pointer plus the two
counters) becomes a structure, and the pointer surgery of `deleteNode` becomes
the corresponding functional subtree replacement along the very descent path
the source walks.  Machine `int` counters are modelled by `Int`; heights are
`Nat` (the source never makes them negative).  Line numbers in the doc
comments refer to `AVL_Database.cpp`.
-/

namespace AVLDB

/-- A database record: a `(key, value)` pair (line 6).  Keys are compared with
the host's lexicographic string order, values are C++ `int`s. -/
structure Record where
  key : String
  value : Int
deriving Repr, DecidableEq

/-- A tree node owning a record, two child subtrees and a cached height
(line 8: a fresh node has height 1).  `nil` models a null pointer. -/
inductive AVLNode where
  | nil : AVLNode
  | node (record : Record) (left right : AVLNode) (height : Nat) : AVLNode
deriving Repr, DecidableEq

/-- `AVLTree::height` (lines 12-15): cached height, 0 for null. -/
def height : AVLNode → Nat
  | .nil => 0
  | .node _ _ _ h => h

/-- `AVLTree::updateHeight` (lines 17-23): recompute this node's cached height
from the children's cached heights. -/
def updateHeight : AVLNode → AVLNode
  | .nil => .nil
  | .node r l rt _ => .node r l rt (1 + max (height l) (height rt))

/-- `AVLTree::getBalance` (lines 25-28). -/
def getBalance : AVLNode → Int
  | .nil => 0
  | .node _ l rt _ => (height l : Int) - (height rt : Int)

/-- `AVLTree::rotateRight` (lines 33-42): `y.left ← L.right; L.right ← y`,
then refresh the cached heights of `y` and `L`; identity when the left child
is missing. -/
def rotateRight : AVLNode → AVLNode
  | .node r (.node lr ll lrt lh) rt h =>
      let y := updateHeight (.node r lrt rt h)
      updateHeight (.node lr ll y lh)
  | t => t

/-- `AVLTree::rotateLeft` (lines 47-56): mirror of `rotateRight`. -/
def rotateLeft : AVLNode → AVLNode
  | .node r l (.node rr rl rrt rh) h =>
      let x := updateHeight (.node r l rl h)
      updateHeight (.node rr x rrt rh)
  | t => t

/-- `AVLTree::minValueNode` (lines 58-65): leftmost node of a subtree.  The
C++ function requires a non-null argument; on `nil` we return `nil`. -/
def minValueNode : AVLNode → AVLNode
  | .node r .nil rt h => .node r .nil rt h
  | .node _ l _ _ => minValueNode l
  | .nil => .nil

/-- `AVLTree::searchHelper` (lines 67-86): iterative key descent rendered as
structural recursion.  `std::string::operator<` is the lexicographic order
on the character sequence, here `·.data < ·.data`.  The `value` argument is
accepted but never used, as in the source. -/
def searchHelper : AVLNode → String → Int → Option AVLNode
  | .nil, _, _ => none
  | .node r l rt h, key, value =>
      if key.data < r.key.data then searchHelper l key value
      else if r.key.data < key.data then searchHelper rt key value
      else some (.node r l rt h)

/-- `AVLTree::reBalance` (lines 88-120): refresh the cached height, then
dispatch on the cached balance factor into the four rotation cases. -/
def reBalance : AVLNode → AVLNode
  | .nil => .nil
  | .node r l rt _ =>
      let n := AVLNode.node r l rt (1 + max (height l) (height rt))
      let b := getBalance n
      if b > 1 ∧ getBalance l ≥ 0 then rotateRight n
      else if b < -1 ∧ getBalance rt ≤ 0 then rotateLeft n
      else if b > 1 ∧ getBalance l < 0 then
        rotateRight (AVLNode.node r (rotateLeft l) rt (1 + max (height l) (height rt)))
      else if b < -1 ∧ getBalance rt > 0 then
        rotateLeft (AVLNode.node r l (rotateRight rt) (1 + max (height l) (height rt)))
      else n

/-- `AVLTree::insertHelper` (lines 122-138).  Note that on an equal key
neither branch is taken (the source tests only `<` and `>`), so the incoming
record is not placed anywhere. -/
def insertHelper : AVLNode → Record → AVLNode
  | .nil, record => .node record .nil .nil 1
  | .node r l rt h, record =>
      if record.key.data < r.key.data then
        reBalance (updateHeight (.node r (insertHelper l record) rt h))
      else if r.key.data < record.key.data then
        reBalance (updateHeight (.node r l (insertHelper rt record) h))
      else
        reBalance (updateHeight (.node r l rt h))

/-- The tree object: root pointer plus the two `int` counters
(constructor at line 10 starts both counters at 0). -/
structure AVLTree where
  root : AVLNode
  nodeCount : Int
  searchComparisonCount : Int
deriving Repr, DecidableEq

/-- A freshly constructed tree (line 10). -/
def AVLTree.empty : AVLTree := ⟨.nil, 0, 0⟩

/-- `AVLTree::insert` (lines 140-151).  The empty-root branch also increments
`searchComparisonCount` (line 146); the other branch leaves it alone. -/
def AVLTree.insert (t : AVLTree) (record : Record) : AVLTree :=
  match t.root with
  | .nil => ⟨.node record .nil .nil 1, t.nodeCount + 1, t.searchComparisonCount + 1⟩
  | root => ⟨insertHelper root record, t.nodeCount + 1, t.searchComparisonCount⟩

/-- Record carried by a node; the sentinel pair for `nil`. -/
def recOf : AVLNode → Record
  | .nil => ⟨"", 0⟩
  | .node r _ _ _ => r

/-- Value-level effect of the successor splice in deletion case 3
(lines 201-209): the parent of the leftmost node of the subtree gets that
node's right child in its place.  No cached height on the path is touched,
exactly as in the source. -/
def removeMin : AVLNode → AVLNode
  | .nil => .nil
  | .node _ .nil rt _ => rt
  | .node r l rt h => .node r (removeMin l) rt h

/-- Value-level effect of the pointer surgery of `deleteNode`
(lines 164-210): descend by the same key comparisons `searchHelper` and
`deleteHelper` (lines 218-232) perform, and at the matching node apply the
three removal cases — leaf: drop it; one child: splice the child in; two
children: adopt the in-order successor's record and splice the successor out.
Cached heights along the path are left stale, as in the source. -/
def deleteAt : AVLNode → String → AVLNode
  | .nil, _ => .nil
  | .node r l rt h, key =>
      if key.data < r.key.data then .node r (deleteAt l key) rt h
      else if r.key.data < key.data then .node r l (deleteAt rt key) h
      else
        match l, rt with
        | .nil, .nil => .nil
        | .nil, c => c
        | c, .nil => c
        | _, _ => .node (recOf (minValueNode rt)) l (removeMin rt) h

/-- `AVLTree::deleteNode` (lines 153-216): locate the node by key, bail out
when it is missing or its value mismatches, otherwise perform the removal,
refresh the root height, rebalance once at the root, and decrement
`nodeCount`. -/
def AVLTree.deleteNode (t : AVLTree) (key : String) (value : Int) : AVLTree :=
  match t.root with
  | .nil => t
  | root =>
      match searchHelper root key value with
      | none => t
      | some nd =>
          if (recOf nd).value = value then
            ⟨reBalance (updateHeight (deleteAt root key)), t.nodeCount - 1,
              t.searchComparisonCount⟩
          else t

/-- `AVLTree::search` (lines 234-246), with the state threaded explicitly:
the method writes no member of the tree, so the state component comes back
unchanged; on a miss the sentinel record `("", 0)` is produced
(lines 241-243). -/
def AVLTree.searchSt (t : AVLTree) (key : String) (value : Int) : Record × AVLTree :=
  match searchHelper t.root key value with
  | some n => (recOf n, t)
  | none => (⟨"", 0⟩, t)

/-- Result component of `AVLTree::search`. -/
def AVLTree.search (t : AVLTree) (key : String) (value : Int) : Record :=
  (t.searchSt key value).1

/-- The façade object (lines 248-332). -/
structure IndexedDatabase where
  index : AVLTree
deriving Repr, DecidableEq

/-- `IndexedDatabase::insert` (lines 249-252). -/
def IndexedDatabase.insert (db : IndexedDatabase) (r : Record) : IndexedDatabase :=
  ⟨db.index.insert r⟩

/-- `IndexedDatabase::search` (lines 254-257). -/
def IndexedDatabase.search (db : IndexedDatabase) (k : String) (v : Int) : Record :=
  db.index.search k v

/-- `IndexedDatabase::deleteRecord` (lines 259-262). -/
def IndexedDatabase.deleteRecord (db : IndexedDatabase) (k : String) (v : Int) :
    IndexedDatabase :=
  ⟨db.index.deleteNode k v⟩

/-- `IndexedDatabase::rangeQueryHelper` (lines 272-291); the by-reference
result vector is an accumulator, `push_back` appends on the right. -/
def rangeQueryHelper : AVLNode → Int → Int → List Record → List Record
  | .nil, _, _, result => result
  | .node r l rt _, start, stop, result =>
      let result1 := if r.value > start then rangeQueryHelper l start stop result else result
      let result2 := if r.value ≥ start ∧ r.value ≤ stop then result1 ++ [r] else result1
      if r.value < stop then rangeQueryHelper rt start stop result2 else result2

/-- `IndexedDatabase::rangeQuery` (lines 293-298). -/
def IndexedDatabase.rangeQuery (db : IndexedDatabase) (start stop : Int) : List Record :=
  rangeQueryHelper db.index.root start stop []

/-- `IndexedDatabase::clearDatabase` (lines 300-314): `clearHelper` only
releases memory, so the value-level effect is `root ← nil`; neither counter
is touched. -/
def IndexedDatabase.clearDatabase (db : IndexedDatabase) : IndexedDatabase :=
  ⟨⟨.nil, db.index.nodeCount, db.index.searchComparisonCount⟩⟩

/-- `IndexedDatabase::calculateHeight` (lines 316-321): height recomputed
from scratch, independent of the caches. -/
def calculateHeight : AVLNode → Nat
  | .nil => 0
  | .node _ l rt _ => 1 + max (calculateHeight l) (calculateHeight rt)

/-- `IndexedDatabase::getTreeHeight` (lines 323-326). -/
def IndexedDatabase.getTreeHeight (db : IndexedDatabase) : Nat :=
  calculateHeight db.index.root

/-- Modelled from the spec: `getLastSearchComparisons` is declared in
`AVL_Database.hpp`, which is not among the sources; per §4.3 it simply
"returns the counter". -/
def AVLTree.getLastSearchComparisons (t : AVLTree) : Int := t.searchComparisonCount

/-- `IndexedDatabase::getSearchComparisons` (lines 328-332): perform a
search, then read the counter. -/
def IndexedDatabase.getSearchComparisons (db : IndexedDatabase) (k : String) (v : Int) : Int :=
  ((db.index.searchSt k v).2).getLastSearchComparisons

/-- Modelled from the spec (§4.3): the "number of key comparisons performed
during the most recent search descent" — one comparison for the `<` test of
line 72, a second for the `>` test of line 76, summed along the descent. -/
def descentComparisons : AVLNode → String → Nat
  | .nil, _ => 0
  | .node r l rt _, key =>
      if key.data < r.key.data then 1 + descentComparisons l key
      else if r.key.data < key.data then 2 + descentComparisons rt key
      else 2

/-! ### Observation functions used to state the invariants -/

/-- In-order record sequence of a subtree. -/
def inorder : AVLNode → List Record
  | .nil => []
  | .node r l rt _ => inorder l ++ r :: inorder rt

/-- Keys stored in a subtree, in order. -/
def keys (t : AVLNode) : List String := (inorder t).map Record.key

/-- Number of nodes reachable from a subtree root. -/
def size (t : AVLNode) : Nat := (inorder t).length

/-- Every record of the subtree satisfies `p`. -/
def allB (p : Record → Bool) : AVLNode → Bool
  | .nil => true
  | .node r l rt _ => p r && allB p l && allB p rt

/-- Spec invariant 1: strict BST ordering on keys (lexicographic on the
character sequences). -/
def isBST : AVLNode → Bool
  | .nil => true
  | .node r l rt _ =>
      allB (fun s => decide (s.key.data < r.key.data)) l &&
      allB (fun s => decide (r.key.data < s.key.data)) rt && isBST l && isBST rt

/-- Spec invariant 2 stated with recomputed (actual) heights: at every node
the two child heights differ by at most 1. -/
def balancedReal : AVLNode → Bool
  | .nil => true
  | .node _ l rt _ =>
      decide (((calculateHeight l : Int) - (calculateHeight rt : Int)).natAbs ≤ 1) &&
      balancedReal l && balancedReal rt

/-- Spec invariant 3: every cached height agrees with the recomputed one. -/
def heightsOK : AVLNode → Bool
  | .nil => true
  | .node _ l rt h =>
      (h == 1 + max (calculateHeight l) (calculateHeight rt)) && heightsOK l && heightsOK rt

/-- Height-balanced with correct height caches. -/
def isAVL (t : AVLNode) : Bool := balancedReal t && heightsOK t

/-- The range-query decision rule exactly as §4.2 of the spec states it:
left child iff `value > start`, append iff `start ≤ value ≤ end`, right
child iff `value < end` (reference definition for the refinement claim). -/
def specRangeRule : AVLNode → Int → Int → List Record
  | .nil, _, _ => []
  | .node r l rt _, start, stop =>
      (if r.value > start then specRangeRule l start stop else []) ++
      (if start ≤ r.value ∧ r.value ≤ stop then [r] else []) ++
      (if r.value < stop then specRangeRule rt start stop else [])

/-- Strictly increasing key sequence. -/
def sortedKeys (l : List Record) : Prop :=
  List.Pairwise (fun a b => a.key.data < b.key.data) l

/-! ### Basic lemmas -/

lemma keys_node (r : Record) (l rt : AVLNode) (h : Nat) :
    keys (.node r l rt h) = keys l ++ r.key :: keys rt := by
  simp [keys, inorder]

lemma str_eq_of_data {a b : String} (h : a.data = b.data) : a = b := by
  cases a; cases b; exact congrArg String.mk h

lemma str_ne_of_data {a b : String} (h : a.data ≠ b.data) : a ≠ b :=
  fun e => h (by rw [e])

lemma inorder_updateHeight (t : AVLNode) : inorder (updateHeight t) = inorder t := by
  cases t <;> rfl

lemma inorder_rotateRight (t : AVLNode) : inorder (rotateRight t) = inorder t := by
  match t with
  | .nil => rfl
  | .node r .nil rt h => rfl
  | .node r (.node lr ll lrt lh) rt h =>
      simp [rotateRight, updateHeight, inorder]

lemma inorder_rotateLeft (t : AVLNode) : inorder (rotateLeft t) = inorder t := by
  match t with
  | .nil => rfl
  | .node r l .nil h => rfl
  | .node r l (.node rr rl rrt rh) h =>
      simp [rotateLeft, updateHeight, inorder]

lemma inorder_reBalance (t : AVLNode) : inorder (reBalance t) = inorder t := by
  match t with
  | .nil => rfl
  | .node r l rt h =>
      simp only [reBalance]
      split_ifs <;>
        simp [inorder_rotateRight, inorder_rotateLeft, inorder]

lemma searchHelper_eq_none (t : AVLNode) (k : String) (v : Int) (h : k ∉ keys t) :
    searchHelper t k v = none := by
  induction t with
  | nil => rfl
  | node r l rt ht ihl ihr =>
      rw [keys_node] at h
      simp only [List.mem_append, List.mem_cons, not_or] at h
      obtain ⟨hl, hr, hrt⟩ := h
      by_cases h1 : k.data < r.key.data
      · simpa [searchHelper, h1] using ihl hl
      · by_cases h2 : r.key.data < k.data
        · simpa [searchHelper, h1, h2] using ihr hrt
        · exact absurd (str_eq_of_data (le_antisymm (not_lt.mp h2) (not_lt.mp h1))) hr

/-! ### Range query -/

lemma rangeQueryHelper_eq (t : AVLNode) : ∀ start stop acc,
    rangeQueryHelper t start stop acc = acc ++ specRangeRule t start stop := by
  induction t with
  | nil => intro s e acc; simp [rangeQueryHelper, specRangeRule]
  | node r l rt h ihl ihr =>
      intro s e acc
      simp only [rangeQueryHelper, specRangeRule, ge_iff_le, gt_iff_lt]
      split_ifs <;> simp [ihl, ihr]

lemma mem_specRangeRule (t : AVLNode) : ∀ start stop r, r ∈ specRangeRule t start stop →
    start ≤ r.value ∧ r.value ≤ stop := by
  induction t with
  | nil => simp [specRangeRule]
  | node rc l rt h ihl ihr =>
      intro s e r hr
      simp only [specRangeRule, List.mem_append] at hr
      rcases hr with (hr | hr) | hr
      · split_ifs at hr with h1
        · exact ihl s e r hr
        · simp at hr
      · split_ifs at hr with h1
        · simp only [List.mem_singleton] at hr
          subst hr; exact h1
        · simp at hr
      · split_ifs at hr with h1
        · exact ihr s e r hr
        · simp at hr

/-! ### BST ordering machinery -/

lemma allB_iff (p : Record → Bool) (t : AVLNode) :
    allB p t = true ↔ ∀ r ∈ inorder t, p r = true := by
  induction t with
  | nil => simp [allB, inorder]
  | node r l rt h ihl ihr =>
      simp only [allB, Bool.and_eq_true, ihl, ihr, inorder, List.mem_append, List.mem_cons]
      constructor
      · rintro ⟨⟨hp, hl⟩, hr⟩ x hx
        rcases hx with hx | hx | hx
        · exact hl x hx
        · subst hx; exact hp
        · exact hr x hx
      · intro hx
        exact ⟨⟨hx r (Or.inr (Or.inl rfl)), fun x h => hx x (Or.inl h)⟩,
          fun x h => hx x (Or.inr (Or.inr h))⟩

lemma isBST_iff (t : AVLNode) : isBST t = true ↔ sortedKeys (inorder t) := by
  induction t with
  | nil => simp [isBST, inorder, sortedKeys]
  | node r l rt h ihl ihr =>
      simp only [isBST, Bool.and_eq_true, ihl, ihr, allB_iff, decide_eq_true_eq,
        sortedKeys, inorder, List.pairwise_append, List.pairwise_cons, List.mem_cons]
      constructor
      · rintro ⟨⟨⟨hal, har⟩, hsl⟩, hsr⟩
        refine ⟨hsl, ⟨har, hsr⟩, ?_⟩
        intro a ha b hb
        rcases hb with rfl | hb
        · exact hal a ha
        · exact lt_trans (hal a ha) (har b hb)
      · rintro ⟨hsl, ⟨hr1, hsr⟩, hcross⟩
        exact ⟨⟨⟨fun a ha => hcross a ha r (Or.inl rfl), hr1⟩, hsl⟩, hsr⟩

lemma allB_ext {t₁ t₂ : AVLNode} (h : inorder t₁ = inorder t₂) (p : Record → Bool) :
    (allB p t₁ = true) ↔ (allB p t₂ = true) := by
  rw [allB_iff, allB_iff, h]

lemma isBST_ext {t₁ t₂ : AVLNode} (h : inorder t₁ = inorder t₂) :
    (isBST t₁ = true) ↔ (isBST t₂ = true) := by
  rw [isBST_iff, isBST_iff, h]

lemma sorted_key_unique {l : List Record} (h : sortedKeys l) :
    ∀ a ∈ l, ∀ b ∈ l, a.key = b.key → a = b := by
  induction l with
  | nil => simp
  | cons x xs ih =>
      obtain ⟨hx, hxs⟩ := List.pairwise_cons.mp h
      intro a ha b hb heq
      rcases List.mem_cons.mp ha with ha1 | ha1
      · rcases List.mem_cons.mp hb with hb1 | hb1
        · rw [ha1, hb1]
        · exfalso
          have hlt := hx b hb1
          rw [ha1] at heq
          rw [← heq] at hlt
          exact lt_irrefl _ hlt
      · rcases List.mem_cons.mp hb with hb1 | hb1
        · exfalso
          have hlt := hx a ha1
          rw [hb1] at heq
          rw [heq] at hlt
          exact lt_irrefl _ hlt
        · exact ih hxs a ha1 b hb1 heq

lemma searchHelper_some (t : AVLNode) (k : String) (v : Int) :
    ∀ n, searchHelper t k v = some n → recOf n ∈ inorder t ∧ (recOf n).key = k := by
  induction t with
  | nil => intro n h; simp [searchHelper] at h
  | node r l rt ht ihl ihr =>
      intro n h
      simp only [searchHelper] at h
      split_ifs at h with h1 h2
      · obtain ⟨hm, hk⟩ := ihl n h
        exact ⟨by simp [inorder, hm], hk⟩
      · obtain ⟨hm, hk⟩ := ihr n h
        exact ⟨by simp [inorder, hm], hk⟩
      · injection h with h
        subst h
        exact ⟨by simp [inorder, recOf],
          str_eq_of_data (le_antisymm (not_lt.mp h1) (not_lt.mp h2))⟩

lemma searchHelper_isSome (t : AVLNode) (k : String) (v : Int) (hbst : isBST t = true)
    (hk : k ∈ keys t) : ∃ n, searchHelper t k v = some n := by
  induction t with
  | nil => simp [keys, inorder] at hk
  | node r l rt ht ihl ihr =>
      simp only [isBST, Bool.and_eq_true] at hbst
      obtain ⟨⟨⟨hal, har⟩, hbl⟩, hbr⟩ := hbst
      rw [keys_node] at hk
      by_cases h1 : k.data < r.key.data
      · have hkl : k ∈ keys l := by
          rcases List.mem_append.mp hk with hx | hx
          · exact hx
          · exfalso
            rcases List.mem_cons.mp hx with hx | hx
            · rw [hx] at h1; exact lt_irrefl _ h1
            · obtain ⟨s, hs, hkey⟩ := List.mem_map.mp hx
              have hgt := (allB_iff _ _).mp har s hs
              simp only [decide_eq_true_eq] at hgt
              exact absurd (lt_trans h1 (hkey ▸ hgt)) (lt_irrefl _)
        obtain ⟨n, hn⟩ := ihl hbl hkl
        exact ⟨n, by simp [searchHelper, h1, hn]⟩
      · by_cases h2 : r.key.data < k.data
        · have hkrt : k ∈ keys rt := by
            rcases List.mem_append.mp hk with hx | hx
            · exfalso
              obtain ⟨s, hs, hkey⟩ := List.mem_map.mp hx
              have hlt := (allB_iff _ _).mp hal s hs
              simp only [decide_eq_true_eq] at hlt
              exact absurd (lt_trans h2 (hkey ▸ hlt)) (lt_irrefl _)
            · rcases List.mem_cons.mp hx with hx | hx
              · rw [hx] at h2; exact absurd h2 (lt_irrefl _)
              · exact hx
          obtain ⟨n, hn⟩ := ihr hbr hkrt
          exact ⟨n, by simp [searchHelper, h1, h2, hn]⟩
        · exact ⟨.node r l rt ht, by simp [searchHelper, h1, h2]⟩

/-! ### Insertion lemmas -/

lemma allB_insertHelper (p : Record → Bool) (r : Record) (t : AVLNode)
    (ht : allB p t = true) (hr : p r = true) : allB p (insertHelper t r) = true := by
  induction t with
  | nil => simp [insertHelper, allB, hr]
  | node rc l rt h ihl ihr =>
      simp only [allB, Bool.and_eq_true] at ht
      obtain ⟨⟨hc, hl⟩, hrt⟩ := ht
      simp only [insertHelper]
      split_ifs with h1 h2
      · rw [allB_ext (inorder_reBalance _) p, allB_ext (inorder_updateHeight _) p]
        simp only [allB, Bool.and_eq_true]
        exact ⟨⟨hc, ihl hl⟩, hrt⟩
      · rw [allB_ext (inorder_reBalance _) p, allB_ext (inorder_updateHeight _) p]
        simp only [allB, Bool.and_eq_true]
        exact ⟨⟨hc, hl⟩, ihr hrt⟩
      · rw [allB_ext (inorder_reBalance _) p, allB_ext (inorder_updateHeight _) p]
        simp only [allB, Bool.and_eq_true]
        exact ⟨⟨hc, hl⟩, hrt⟩

lemma isBST_insertHelper (t : AVLNode) (r : Record) (hbst : isBST t = true) :
    isBST (insertHelper t r) = true := by
  induction t with
  | nil => simp [insertHelper, isBST, allB]
  | node rc l rt h ihl ihr =>
      simp only [isBST, Bool.and_eq_true] at hbst
      obtain ⟨⟨⟨hal, har⟩, hbl⟩, hbr⟩ := hbst
      simp only [insertHelper]
      split_ifs with h1 h2
      · rw [isBST_ext (inorder_reBalance _), isBST_ext (inorder_updateHeight _)]
        simp only [isBST, Bool.and_eq_true]
        exact ⟨⟨⟨allB_insertHelper _ _ _ hal (by simpa using h1), har⟩, ihl hbl⟩, hbr⟩
      · rw [isBST_ext (inorder_reBalance _), isBST_ext (inorder_updateHeight _)]
        simp only [isBST, Bool.and_eq_true]
        exact ⟨⟨⟨hal, allB_insertHelper _ _ _ har (by simpa using h2)⟩, hbl⟩, ihr hbr⟩
      · rw [isBST_ext (inorder_reBalance _), isBST_ext (inorder_updateHeight _)]
        simp only [isBST, Bool.and_eq_true]
        exact ⟨⟨⟨hal, har⟩, hbl⟩, hbr⟩

lemma mem_insertHelper (t : AVLNode) (r s : Record) (hs : s ∈ inorder t) :
    s ∈ inorder (insertHelper t r) := by
  induction t with
  | nil => simp [inorder] at hs
  | node rc l rt h ihl ihr =>
      simp only [inorder, List.mem_append, List.mem_cons] at hs
      simp only [insertHelper]
      split_ifs with h1 h2
      · rw [inorder_reBalance, inorder_updateHeight]
        simp only [inorder, List.mem_append, List.mem_cons]
        rcases hs with hs | hs | hs
        exacts [Or.inl (ihl hs), Or.inr (Or.inl hs), Or.inr (Or.inr hs)]
      · rw [inorder_reBalance, inorder_updateHeight]
        simp only [inorder, List.mem_append, List.mem_cons]
        rcases hs with hs | hs | hs
        exacts [Or.inl hs, Or.inr (Or.inl hs), Or.inr (Or.inr (ihr hs))]
      · rw [inorder_reBalance, inorder_updateHeight]
        simp only [inorder, List.mem_append, List.mem_cons]
        exact hs

lemma self_mem_insertHelper (t : AVLNode) (r : Record) (hf : r.key ∉ keys t) :
    r ∈ inorder (insertHelper t r) := by
  induction t with
  | nil => simp [insertHelper, inorder]
  | node rc l rt h ihl ihr =>
      rw [keys_node] at hf
      simp only [List.mem_append, List.mem_cons, not_or] at hf
      obtain ⟨hfl, hfc, hfrt⟩ := hf
      simp only [insertHelper]
      split_ifs with h1 h2
      · rw [inorder_reBalance, inorder_updateHeight]
        simp only [inorder, List.mem_append]
        exact Or.inl (ihl hfl)
      · rw [inorder_reBalance, inorder_updateHeight]
        simp only [inorder, List.mem_append, List.mem_cons]
        exact Or.inr (Or.inr (ihr hfrt))
      · exact absurd (str_eq_of_data (le_antisymm (not_lt.mp h2) (not_lt.mp h1))) hfc

lemma key_mem_of_allB_lt {l : AVLNode} {c : String} {k : String}
    (hal : allB (fun s => decide (s.key.data < c.data)) l = true) (hk : k ∈ keys l) :
    k.data < c.data := by
  obtain ⟨s, hs, hkey⟩ := List.mem_map.mp hk
  have := (allB_iff _ _).mp hal s hs
  simp only [decide_eq_true_eq] at this
  exact hkey ▸ this

lemma key_mem_of_allB_gt {l : AVLNode} {c : String} {k : String}
    (hal : allB (fun s => decide (c.data < s.key.data)) l = true) (hk : k ∈ keys l) :
    c.data < k.data := by
  obtain ⟨s, hs, hkey⟩ := List.mem_map.mp hk
  have := (allB_iff _ _).mp hal s hs
  simp only [decide_eq_true_eq] at this
  exact hkey ▸ this

lemma inorder_insertHelper_of_mem (t : AVLNode) (r : Record) (hbst : isBST t = true)
    (hk : r.key ∈ keys t) : inorder (insertHelper t r) = inorder t := by
  induction t with
  | nil => simp [keys, inorder] at hk
  | node rc l rt h ihl ihr =>
      simp only [isBST, Bool.and_eq_true] at hbst
      obtain ⟨⟨⟨hal, har⟩, hbl⟩, hbr⟩ := hbst
      rw [keys_node] at hk
      simp only [insertHelper]
      split_ifs with h1 h2
      · have hkl : r.key ∈ keys l := by
          rcases List.mem_append.mp hk with hx | hx
          · exact hx
          · exfalso
            rcases List.mem_cons.mp hx with hx | hx
            · rw [hx] at h1; exact lt_irrefl _ h1
            · exact lt_irrefl _ (lt_trans h1 (key_mem_of_allB_gt har hx))
        rw [inorder_reBalance, inorder_updateHeight]
        simp only [inorder, ihl hbl hkl]
      · have hkrt : r.key ∈ keys rt := by
          rcases List.mem_append.mp hk with hx | hx
          · exact absurd (lt_trans h2 (key_mem_of_allB_lt hal hx)) (lt_irrefl _)
          · rcases List.mem_cons.mp hx with hx | hx
            · rw [hx] at h2; exact absurd h2 (lt_irrefl _)
            · exact hx
        rw [inorder_reBalance, inorder_updateHeight]
        simp only [inorder, ihr hbr hkrt]
      · rw [inorder_reBalance, inorder_updateHeight]

lemma size_insertHelper_fresh (t : AVLNode) (r : Record) (hf : r.key ∉ keys t) :
    size (insertHelper t r) = size t + 1 := by
  induction t with
  | nil => simp [insertHelper, size, inorder]
  | node rc l rt h ihl ihr =>
      rw [keys_node] at hf
      simp only [List.mem_append, List.mem_cons, not_or] at hf
      obtain ⟨hfl, hfc, hfrt⟩ := hf
      simp only [insertHelper]
      split_ifs with h1 h2
      · simp only [size] at ihl ⊢
        rw [inorder_reBalance, inorder_updateHeight]
        simp only [inorder, List.length_append, List.length_cons, ihl hfl]
        omega
      · simp only [size] at ihr ⊢
        rw [inorder_reBalance, inorder_updateHeight]
        simp only [inorder, List.length_append, List.length_cons, ihr hfrt]
        omega
      · exact absurd (str_eq_of_data (le_antisymm (not_lt.mp h2) (not_lt.mp h1))) hfc

/-! ### Deletion lemmas -/

lemma inorder_removeMin (t : AVLNode) (h : t ≠ .nil) :
    inorder t = recOf (minValueNode t) :: inorder (removeMin t) := by
  induction t with
  | nil => exact absurd rfl h
  | node r l rt ht ihl ihr =>
      cases l with
      | nil => simp [minValueNode, removeMin, inorder, recOf]
      | node lr ll lrt lh =>
          have hl := ihl (by simp)
          have e1 : minValueNode (AVLNode.node r (AVLNode.node lr ll lrt lh) rt ht)
              = minValueNode (AVLNode.node lr ll lrt lh) := rfl
          have e2 : removeMin (AVLNode.node r (AVLNode.node lr ll lrt lh) rt ht)
              = AVLNode.node r (removeMin (AVLNode.node lr ll lrt lh)) rt ht := rfl
          rw [e1, e2]
          show inorder (AVLNode.node lr ll lrt lh) ++ r :: inorder rt
              = recOf (minValueNode (AVLNode.node lr ll lrt lh))
                :: (inorder (removeMin (AVLNode.node lr ll lrt lh)) ++ r :: inorder rt)
          rw [hl]
          simp

lemma deleteAt_decomp (t : AVLNode) (k : String) (hbst : isBST t = true) (hk : k ∈ keys t) :
    ∃ l₁ l₂ r0, inorder t = l₁ ++ r0 :: l₂ ∧ r0.key = k ∧
      inorder (deleteAt t k) = l₁ ++ l₂ ∧
      (∀ s ∈ l₁, s.key ≠ k) ∧ (∀ s ∈ l₂, s.key ≠ k) := by
  induction t with
  | nil => simp [keys, inorder] at hk
  | node r l rt h ihl ihr =>
      simp only [isBST, Bool.and_eq_true] at hbst
      obtain ⟨⟨⟨hal, har⟩, hbl⟩, hbr⟩ := hbst
      have hltl : ∀ s ∈ inorder l, s.key.data < r.key.data := by
        intro s hs
        have := (allB_iff _ _).mp hal s hs
        simpa using this
      have hgtr : ∀ s ∈ inorder rt, r.key.data < s.key.data := by
        intro s hs
        have := (allB_iff _ _).mp har s hs
        simpa using this
      rw [keys_node] at hk
      simp only [deleteAt]
      split_ifs with h1 h2
      · have hkl : k ∈ keys l := by
          rcases List.mem_append.mp hk with hx | hx
          · exact hx
          · exfalso
            rcases List.mem_cons.mp hx with hx | hx
            · rw [hx] at h1; exact lt_irrefl _ h1
            · obtain ⟨s, hs, hkey⟩ := List.mem_map.mp hx
              exact lt_irrefl _ (lt_trans h1 (hkey ▸ hgtr s hs))
        obtain ⟨l₁, l₂, r0, he, hkey, hd, hn1, hn2⟩ := ihl hbl hkl
        refine ⟨l₁, l₂ ++ r :: inorder rt, r0, ?_, hkey, ?_, hn1, ?_⟩
        · simp [inorder, he]
        · simp [inorder, hd]
        · intro s hs
          rcases List.mem_append.mp hs with hs | hs
          · exact hn2 s hs
          · rcases List.mem_cons.mp hs with hs | hs
            · rw [hs]; exact str_ne_of_data (ne_of_gt h1)
            · exact str_ne_of_data (ne_of_gt (lt_trans h1 (hgtr s hs)))
      · have hkrt : k ∈ keys rt := by
          rcases List.mem_append.mp hk with hx | hx
          · exfalso
            obtain ⟨s, hs, hkey⟩ := List.mem_map.mp hx
            exact lt_irrefl _ (lt_trans h2 (hkey ▸ hltl s hs))
          · rcases List.mem_cons.mp hx with hx | hx
            · rw [hx] at h2; exact absurd h2 (lt_irrefl _)
            · exact hx
        obtain ⟨l₁, l₂, r0, he, hkey, hd, hn1, hn2⟩ := ihr hbr hkrt
        refine ⟨inorder l ++ r :: l₁, l₂, r0, ?_, hkey, ?_, ?_, hn2⟩
        · simp [inorder, he]
        · simp [inorder, hd]
        · intro s hs
          rcases List.mem_append.mp hs with hs | hs
          · exact str_ne_of_data (ne_of_lt (lt_trans (hltl s hs) h2))
          · rcases List.mem_cons.mp hs with hs | hs
            · rw [hs]; exact str_ne_of_data (ne_of_lt h2)
            · exact hn1 s hs
      · have hrk : r.key = k := str_eq_of_data (le_antisymm (not_lt.mp h1) (not_lt.mp h2))
        have hlne : ∀ s ∈ inorder l, s.key ≠ k := fun s hs =>
          str_ne_of_data (ne_of_lt (hrk ▸ hltl s hs))
        have hrne : ∀ s ∈ inorder rt, s.key ≠ k := fun s hs =>
          str_ne_of_data (ne_of_gt (hrk ▸ hgtr s hs))
        cases l with
        | nil =>
            cases rt with
            | nil =>
                exact ⟨[], [], r, by simp [inorder], hrk, by simp [inorder], by simp, by simp⟩
            | node rr rl rrt rh =>
                exact ⟨[], inorder (.node rr rl rrt rh), r, by simp [inorder], hrk,
                  by simp [inorder], by simp, hrne⟩
        | node lr ll lrt lh =>
            cases rt with
            | nil =>
                exact ⟨inorder (.node lr ll lrt lh), [], r, by simp [inorder], hrk,
                  by simp [inorder], hlne, by simp⟩
            | node rr rl rrt rh =>
                refine ⟨inorder (.node lr ll lrt lh), inorder (.node rr rl rrt rh), r,
                  rfl, hrk, ?_, hlne, hrne⟩
                have hmin := inorder_removeMin (.node rr rl rrt rh) (by simp)
                simp only [inorder]
                show _ = inorder ll ++ lr :: inorder lrt ++ inorder (AVLNode.node rr rl rrt rh)
                rw [hmin]

/-- Shared characterisation of a successful deletion: the in-order record
sequence loses exactly the found record and `nodeCount` drops by one. -/
lemma deleteNode_success (t : AVLTree) (k : String) (v : Int) (hbst : isBST t.root = true)
    (n : AVLNode) (hs : searchHelper t.root k v = some n) (hv : (recOf n).value = v) :
    ∃ l₁ l₂, inorder t.root = l₁ ++ recOf n :: l₂ ∧
      inorder (t.deleteNode k v).root = l₁ ++ l₂ ∧ (recOf n).key = k ∧
      (∀ s ∈ l₁, s.key ≠ k) ∧ (∀ s ∈ l₂, s.key ≠ k) ∧
      (t.deleteNode k v).nodeCount = t.nodeCount - 1 := by
  obtain ⟨root, nc, sc⟩ := t
  cases root with
  | nil => simp [searchHelper] at hs
  | node r l rt h =>
      obtain ⟨hmem, hkey⟩ := searchHelper_some _ _ _ _ hs
      have hk : k ∈ keys (AVLNode.node r l rt h) := by
        rw [← hkey]
        exact List.mem_map.mpr ⟨recOf n, hmem, rfl⟩
      obtain ⟨l₁, l₂, r0, he, hr0key, hd, hn1, hn2⟩ := deleteAt_decomp _ _ hbst hk
      have hr0mem : r0 ∈ inorder (AVLNode.node r l rt h) := by
        rw [he]; simp
      have hr0 : r0 = recOf n := by
        have hsorted := (isBST_iff _).mp hbst
        exact sorted_key_unique hsorted r0 hr0mem (recOf n) hmem (by rw [hr0key, hkey])
      refine ⟨l₁, l₂, ?_, ?_, hkey, hn1, hn2, ?_⟩
      · rw [he, hr0]
      · show inorder (AVLTree.deleteNode ⟨.node r l rt h, nc, sc⟩ k v).root = l₁ ++ l₂
        simp only [AVLTree.deleteNode, hs, hv, if_pos]
        rw [inorder_reBalance, inorder_updateHeight]
        exact hd
      · simp only [AVLTree.deleteNode, hs, hv, if_pos]

/-! ### Height-balance machinery -/

lemma bool_and_split {a b : Bool} (h : (a && b) = true) : a = true ∧ b = true := by
  constructor <;> simp_all

lemma getBalance_node (r : Record) (l rt : AVLNode) (h : Nat) :
    getBalance (.node r l rt h) = (height l : Int) - height rt := rfl

lemma height_node (r : Record) (l rt : AVLNode) (h : Nat) : height (.node r l rt h) = h := rfl

lemma height_nil : height .nil = 0 := rfl

lemma heightsOK_node (r : Record) (l rt : AVLNode) (h : Nat) :
    heightsOK (.node r l rt h) = true ↔
      h = 1 + max (calculateHeight l) (calculateHeight rt) ∧
      heightsOK l = true ∧ heightsOK rt = true := by
  simp [heightsOK, Bool.and_eq_true, and_assoc]

lemma balancedReal_node (r : Record) (l rt : AVLNode) (h : Nat) :
    balancedReal (.node r l rt h) = true ↔
      ((calculateHeight l : Int) - calculateHeight rt).natAbs ≤ 1 ∧
      balancedReal l = true ∧ balancedReal rt = true := by
  simp [balancedReal, Bool.and_eq_true, and_assoc]

lemma isAVL_node (r : Record) (l rt : AVLNode) (h : Nat) :
    isAVL (.node r l rt h) = true ↔
      h = 1 + max (calculateHeight l) (calculateHeight rt) ∧
      ((calculateHeight l : Int) - calculateHeight rt).natAbs ≤ 1 ∧
      isAVL l = true ∧ isAVL rt = true := by
  simp only [isAVL, Bool.and_eq_true, balancedReal_node, heightsOK_node]
  tauto

lemma height_eq_calc (t : AVLNode) (h : heightsOK t = true) :
    height t = calculateHeight t := by
  cases t with
  | nil => rfl
  | node r l rt ht =>
      rw [heightsOK_node] at h
      simp only [height, calculateHeight]
      exact h.1

/-- Behaviour of `reBalance` on a node whose subtrees are AVL and whose
recomputed child heights differ by at most two: the result is AVL and its
height is pinned between `max` and `1 + max` of the child heights, with
equality to `1 + max` whenever no rotation was needed. -/
lemma reBalance_avl (rc : Record) (l rt : AVLNode) (h0 : Nat)
    (hl : isAVL l = true) (hr : isAVL rt = true)
    (hdiff : ((calculateHeight l : Int) - calculateHeight rt).natAbs ≤ 2) :
    isAVL (reBalance (.node rc l rt h0)) = true ∧
    max (calculateHeight l) (calculateHeight rt) ≤
      calculateHeight (reBalance (.node rc l rt h0)) ∧
    calculateHeight (reBalance (.node rc l rt h0)) ≤
      1 + max (calculateHeight l) (calculateHeight rt) ∧
    (((calculateHeight l : Int) - calculateHeight rt).natAbs ≤ 1 →
      calculateHeight (reBalance (.node rc l rt h0)) =
        1 + max (calculateHeight l) (calculateHeight rt)) := by
  have el : height l = calculateHeight l := height_eq_calc l (bool_and_split hl).2
  have er : height rt = calculateHeight rt := height_eq_calc rt (bool_and_split hr).2
  simp only [reBalance, getBalance_node, el, er]
  split_ifs with hA hB hC hD
  · -- LL: rotateRight at the node
    obtain ⟨hgt, hbal0⟩ := hA
    cases l with
    | nil =>
        exfalso
        simp only [calculateHeight] at hgt
        omega
    | node lrec ll lrt2 lh =>
        rw [isAVL_node] at hl
        obtain ⟨hlh, hbal_l, hll, hlrt⟩ := hl
        have ell : height ll = calculateHeight ll :=
          height_eq_calc _ (bool_and_split hll).2
        have elrt : height lrt2 = calculateHeight lrt2 :=
          height_eq_calc _ (bool_and_split hlrt).2
        rw [getBalance_node, ell, elrt] at hbal0
        simp only [calculateHeight] at hgt hdiff
        simp only [rotateRight, updateHeight, height_node, ell, elrt, er]
        refine ⟨?_, ?_, ?_, ?_⟩
        · rw [isAVL_node, isAVL_node]
          refine ⟨?_, ?_, hll, ?_, ?_, hlrt, hr⟩ <;> (try simp only [calculateHeight]) <;> omega
        · simp only [calculateHeight]; omega
        · simp only [calculateHeight]; omega
        · intro hcontra
          simp only [calculateHeight] at hcontra
          omega
  · -- RR: rotateLeft at the node
    obtain ⟨hgt, hbal0⟩ := hB
    cases rt with
    | nil =>
        exfalso
        simp only [calculateHeight] at hgt
        omega
    | node rrec rl rrt2 rh =>
        rw [isAVL_node] at hr
        obtain ⟨hrh, hbal_r, hrl, hrrt⟩ := hr
        have erl : height rl = calculateHeight rl :=
          height_eq_calc _ (bool_and_split hrl).2
        have errt : height rrt2 = calculateHeight rrt2 :=
          height_eq_calc _ (bool_and_split hrrt).2
        rw [getBalance_node, erl, errt] at hbal0
        simp only [calculateHeight] at hgt hdiff
        simp only [rotateLeft, updateHeight, height_node, erl, errt, el]
        refine ⟨?_, ?_, ?_, ?_⟩
        · rw [isAVL_node, isAVL_node]
          refine ⟨?_, ?_, ⟨?_, ?_, hl, hrl⟩, hrrt⟩ <;> (try simp only [calculateHeight]) <;> omega
        · simp only [calculateHeight]; omega
        · simp only [calculateHeight]; omega
        · intro hcontra
          simp only [calculateHeight] at hcontra
          omega
  · -- LR: rotateLeft on the left child, then rotateRight
    obtain ⟨hgt, hbal0⟩ := hC
    cases l with
    | nil =>
        exfalso
        simp only [calculateHeight] at hgt
        omega
    | node lrec ll lrt2 lh =>
        rw [isAVL_node] at hl
        obtain ⟨hlh, hbal_l, hll, hlrt⟩ := hl
        have ell : height ll = calculateHeight ll :=
          height_eq_calc _ (bool_and_split hll).2
        rw [getBalance_node] at hbal0
        cases lrt2 with
        | nil =>
            exfalso
            simp only [height_nil, ell] at hbal0
            omega
        | node lrr lrl lrrt lrh =>
            rw [isAVL_node] at hlrt
            obtain ⟨hlrh, hbal_lr, hlrl, hlrrt⟩ := hlrt
            have elrl : height lrl = calculateHeight lrl :=
              height_eq_calc _ (bool_and_split hlrl).2
            have elrrt : height lrrt = calculateHeight lrrt :=
              height_eq_calc _ (bool_and_split hlrrt).2
            simp only [height_node, ell, hlrh] at hbal0
            simp only [calculateHeight] at hgt hdiff hbal_l
            simp only [rotateLeft, rotateRight, updateHeight, height_node, ell, elrl, elrrt, er]
            refine ⟨?_, ?_, ?_, ?_⟩
            · rw [isAVL_node, isAVL_node, isAVL_node]
              refine ⟨?_, ?_, ⟨?_, ?_, hll, hlrl⟩, ?_, ?_, hlrrt, hr⟩ <;>
                (try simp only [calculateHeight]) <;> omega
            · simp only [calculateHeight]; omega
            · simp only [calculateHeight]; omega
            · intro hcontra
              simp only [calculateHeight] at hcontra
              omega
  · -- RL: rotateRight on the right child, then rotateLeft
    obtain ⟨hgt, hbal0⟩ := hD
    cases rt with
    | nil =>
        exfalso
        simp only [calculateHeight] at hgt
        omega
    | node rrec rl rrt2 rh =>
        rw [isAVL_node] at hr
        obtain ⟨hrh, hbal_r, hrl, hrrt⟩ := hr
        have errt : height rrt2 = calculateHeight rrt2 :=
          height_eq_calc _ (bool_and_split hrrt).2
        rw [getBalance_node] at hbal0
        cases rl with
        | nil =>
            exfalso
            simp only [height_nil, errt] at hbal0
            omega
        | node rlr rll rlrt rlh =>
            rw [isAVL_node] at hrl
            obtain ⟨hrlh, hbal_rl, hrll, hrlrt⟩ := hrl
            have erll : height rll = calculateHeight rll :=
              height_eq_calc _ (bool_and_split hrll).2
            have erlrt : height rlrt = calculateHeight rlrt :=
              height_eq_calc _ (bool_and_split hrlrt).2
            simp only [height_node, errt, hrlh] at hbal0
            simp only [calculateHeight] at hgt hdiff hbal_r
            simp only [rotateRight, rotateLeft, updateHeight, height_node, erll, erlrt, errt, el]
            refine ⟨?_, ?_, ?_, ?_⟩
            · rw [isAVL_node, isAVL_node, isAVL_node]
              refine ⟨?_, ?_, ⟨?_, ?_, hl, hrll⟩, ?_, ?_, hrlrt, hrrt⟩ <;>
                (try simp only [calculateHeight]) <;> omega
            · simp only [calculateHeight]; omega
            · simp only [calculateHeight]; omega
            · intro hcontra
              simp only [calculateHeight] at hcontra
              omega
  · -- no rotation
    have hb1 : (calculateHeight l : Int) - calculateHeight rt ≤ 1 := by
      by_contra hc
      push_neg at hc
      rcases lt_or_ge (getBalance l) 0 with hgb | hgb
      · exact hC ⟨hc, hgb⟩
      · exact hA ⟨hc, hgb⟩
    have hb2 : (calculateHeight rt : Int) - calculateHeight l ≤ 1 := by
      by_contra hc
      push_neg at hc
      rcases le_or_lt (getBalance rt) 0 with hgb | hgb
      · exact hB ⟨by omega, hgb⟩
      · exact hD ⟨by omega, hgb⟩
    refine ⟨?_, ?_, ?_, ?_⟩
    · rw [isAVL_node]
      exact ⟨rfl, by omega, hl, hr⟩
    · simp only [calculateHeight]; omega
    · simp only [calculateHeight]; omega
    · intro _; simp only [calculateHeight]

/-- Insertion preserves the AVL shape invariants and grows the recomputed
height by at most one. -/
lemma insertHelper_avl (r : Record) : ∀ t : AVLNode, isAVL t = true →
    isAVL (insertHelper t r) = true ∧
    calculateHeight t ≤ calculateHeight (insertHelper t r) ∧
    calculateHeight (insertHelper t r) ≤ calculateHeight t + 1 := by
  intro t
  induction t with
  | nil =>
      intro _
      refine ⟨?_, ?_, ?_⟩ <;>
        simp [insertHelper, isAVL, balancedReal, heightsOK, calculateHeight]
  | node rc l rt h ihl ihr =>
      intro havl
      rw [isAVL_node] at havl
      obtain ⟨hhh, hbal, hl, hr⟩ := havl
      simp only [insertHelper]
      split_ifs with h1 h2
      · obtain ⟨hl', hlow, hhigh⟩ := ihl hl
        have hdiff : ((calculateHeight (insertHelper l r) : Int) -
            calculateHeight rt).natAbs ≤ 2 := by omega
        simp only [updateHeight]
        obtain ⟨ha, hb, hc, hd⟩ :=
          reBalance_avl rc (insertHelper l r) rt
            (1 + max (height (insertHelper l r)) (height rt)) hl' hr hdiff
        by_cases hcase : ((calculateHeight (insertHelper l r) : Int) -
            calculateHeight rt).natAbs ≤ 1
        · have hexact := hd hcase
          refine ⟨ha, ?_, ?_⟩ <;> (try simp only [calculateHeight]) <;> omega
        · refine ⟨ha, ?_, ?_⟩ <;> (try simp only [calculateHeight]) <;> omega
      · obtain ⟨hr', hlow, hhigh⟩ := ihr hr
        have hdiff : ((calculateHeight l : Int) -
            calculateHeight (insertHelper rt r)).natAbs ≤ 2 := by omega
        simp only [updateHeight]
        obtain ⟨ha, hb, hc, hd⟩ :=
          reBalance_avl rc l (insertHelper rt r)
            (1 + max (height l) (height (insertHelper rt r))) hl hr' hdiff
        by_cases hcase : ((calculateHeight l : Int) -
            calculateHeight (insertHelper rt r)).natAbs ≤ 1
        · have hexact := hd hcase
          refine ⟨ha, ?_, ?_⟩ <;> (try simp only [calculateHeight]) <;> omega
        · refine ⟨ha, ?_, ?_⟩ <;> (try simp only [calculateHeight]) <;> omega
      · simp only [updateHeight]
        obtain ⟨ha, hb, hc, hd⟩ :=
          reBalance_avl rc l rt (1 + max (height l) (height rt)) hl hr (by omega)
        have hexact := hd hbal
        refine ⟨ha, ?_, ?_⟩ <;> (try simp only [calculateHeight]) <;> omega

/-! ### Claim theorems -/

/-- C3: `deleteNode(key, value)` removes exactly the node whose key equals
`key` and whose record's value equals `value`, decrementing `nodeCount`; if
no node matches both (absent key, or first-found key with a different
value), the call leaves the tree and `nodeCount` unchanged. -/
theorem deleteNode_exact (t : AVLTree) (k : String) (v : Int) (hbst : isBST t.root = true) :
    ((∀ n, searchHelper t.root k v = some n → (recOf n).value ≠ v) → t.deleteNode k v = t) ∧
    (∀ n, searchHelper t.root k v = some n → (recOf n).value = v →
      ∃ l₁ l₂, inorder t.root = l₁ ++ recOf n :: l₂ ∧
        inorder (t.deleteNode k v).root = l₁ ++ l₂ ∧ (recOf n).key = k ∧
        (∀ s ∈ l₁, s.key ≠ k) ∧ (∀ s ∈ l₂, s.key ≠ k) ∧
        (t.deleteNode k v).nodeCount = t.nodeCount - 1) := by
  constructor
  · intro hmis
    obtain ⟨root, nc, sc⟩ := t
    cases root with
    | nil => rfl
    | node r l rt h =>
        cases hs : searchHelper (AVLNode.node r l rt h) k v with
        | none => simp [AVLTree.deleteNode, hs]
        | some nd => simp [AVLTree.deleteNode, hs, hmis nd hs]
  · exact fun n hs hv => deleteNode_success t k v hbst n hs hv

/-- C3 witness: deleting `("a", 1)` from the two-node tree obtained by
inserting `("b", 2)` then `("a", 1)` removes exactly that record. -/
theorem deleteNode_exact_witness :
    ∃ l₁ l₂,
      inorder ((AVLTree.empty.insert ⟨"b", 2⟩).insert ⟨"a", 1⟩).root
        = l₁ ++ recOf (.node ⟨"a", 1⟩ .nil .nil 1) :: l₂ ∧
      inorder (((AVLTree.empty.insert ⟨"b", 2⟩).insert ⟨"a", 1⟩).deleteNode "a" 1).root
        = l₁ ++ l₂ ∧
      (recOf (AVLNode.node ⟨"a", 1⟩ .nil .nil 1)).key = "a" ∧
      (∀ s ∈ l₁, s.key ≠ "a") ∧ (∀ s ∈ l₂, s.key ≠ "a") ∧
      (((AVLTree.empty.insert ⟨"b", 2⟩).insert ⟨"a", 1⟩).deleteNode "a" 1).nodeCount
        = ((AVLTree.empty.insert ⟨"b", 2⟩).insert ⟨"a", 1⟩).nodeCount - 1 :=
  (deleteNode_exact ((AVLTree.empty.insert ⟨"b", 2⟩).insert ⟨"a", 1⟩) "a" 1 (by decide)).2
    (.node ⟨"a", 1⟩ .nil .nil 1) (by decide) (by decide)

/-- C4 counterexample: inserting a record whose key is already present does
NOT place it in the tree (the source's `insertHelper` takes neither branch
on an equal key): after `insert ("a",1); insert ("a",2)` the second record
is nowhere in the tree and only one node is reachable. -/
theorem insert_duplicate_key_not_placed :
    Record.mk "a" 2 ∉ inorder ((AVLTree.empty.insert ⟨"a", 1⟩).insert ⟨"a", 2⟩).root ∧
    size ((AVLTree.empty.insert ⟨"a", 1⟩).insert ⟨"a", 2⟩).root = 1 := by decide

/-- C4 amended: when `insert` is called with a record whose key equals the
key of an existing node, the record is dropped — the node set is unchanged
(duplicate keys cannot coexist) — while `nodeCount` is still incremented;
`search` keeps returning the originally stored record for that key. -/
theorem insert_existing_key_noop (t : AVLTree) (r : Record) (hbst : isBST t.root = true)
    (hk : r.key ∈ keys t.root) :
    inorder (t.insert r).root = inorder t.root ∧ (t.insert r).nodeCount = t.nodeCount + 1 := by
  obtain ⟨root, nc, sc⟩ := t
  cases root with
  | nil => simp [keys, inorder] at hk
  | node rc l rt h =>
      exact ⟨inorder_insertHelper_of_mem _ r hbst hk, rfl⟩

/-- C4 witness: re-inserting key `"a"` into a tree already holding
`("a", 1)` leaves the record list unchanged and bumps the count. -/
theorem insert_existing_key_noop_witness :
    inorder ((AVLTree.empty.insert ⟨"a", 1⟩).insert ⟨"a", 5⟩).root
      = inorder (AVLTree.empty.insert ⟨"a", 1⟩).root ∧
    ((AVLTree.empty.insert ⟨"a", 1⟩).insert ⟨"a", 5⟩).nodeCount
      = (AVLTree.empty.insert ⟨"a", 1⟩).nodeCount + 1 :=
  insert_existing_key_noop (AVLTree.empty.insert ⟨"a", 1⟩) ⟨"a", 5⟩ (by decide) (by decide)

/-- C5: searching for a key not present in the tree yields the sentinel
record `("", 0)` and leaves the tree state unchanged. -/
theorem search_absent_sentinel (t : AVLTree) (k : String) (v : Int) (h : k ∉ keys t.root) :
    t.searchSt k v = (⟨"", 0⟩, t) := by
  unfold AVLTree.searchSt
  rw [searchHelper_eq_none t.root k v h]

/-- C5 witness: key `"z"` is absent from the two-record tree, and searching
for it produces the sentinel with the state untouched. -/
theorem search_absent_sentinel_witness :
    "z" ∉ keys ((AVLTree.empty.insert ⟨"b", 2⟩).insert ⟨"a", 1⟩).root ∧
    ((AVLTree.empty.insert ⟨"b", 2⟩).insert ⟨"a", 1⟩).searchSt "z" 0
      = (⟨"", 0⟩, (AVLTree.empty.insert ⟨"b", 2⟩).insert ⟨"a", 1⟩) :=
  ⟨by decide, search_absent_sentinel ((AVLTree.empty.insert ⟨"b", 2⟩).insert ⟨"a", 1⟩) "z" 0
    (by decide)⟩

/-- C6 counterexample: after `insert ("a",1); insert ("a",2)` the counter
says 2 but only one node is reachable from the root, so `nodeCount` does
not equal the reachable-node count. -/
theorem nodeCount_drifts_from_size :
    ((AVLTree.empty.insert ⟨"a", 1⟩).insert ⟨"a", 2⟩).nodeCount = 2 ∧
    size ((AVLTree.empty.insert ⟨"a", 1⟩).insert ⟨"a", 2⟩).root = 1 := by decide

/-- C6 amended: the equality `nodeCount = number of reachable nodes` is
preserved by an insert with a fresh key (one node added, counter +1) and by
a successful delete (one node removed, counter −1); it is broken by
duplicate-key inserts (counterexample) and left stale by `clearDatabase`. -/
theorem nodeCount_preserved (t : AVLTree) (r : Record) (k : String) (v : Int)
    (hbst : isBST t.root = true) (hcount : t.nodeCount = (size t.root : Int)) :
    (r.key ∉ keys t.root →
      (t.insert r).nodeCount = (size (t.insert r).root : Int) ∧
      size (t.insert r).root = size t.root + 1) ∧
    (∀ n, searchHelper t.root k v = some n → (recOf n).value = v →
      (t.deleteNode k v).nodeCount = (size (t.deleteNode k v).root : Int) ∧
      size (t.deleteNode k v).root + 1 = size t.root) := by
  constructor
  · intro hf
    obtain ⟨root, nc, sc⟩ := t
    cases root with
    | nil =>
        simp only [size, inorder, List.length_nil, Nat.cast_zero] at hcount
        constructor
        · show nc + 1 = ((inorder (AVLNode.node r .nil .nil 1)).length : Int)
          simp [inorder, hcount]
        · show (inorder (AVLNode.node r .nil .nil 1)).length = (inorder AVLNode.nil).length + 1
          simp [inorder]
    | node rc l rt h =>
        have hsz := size_insertHelper_fresh (AVLNode.node rc l rt h) r hf
        have hcount' : nc = (size (AVLNode.node rc l rt h) : Int) := hcount
        constructor
        · show nc + 1 = (size (insertHelper (AVLNode.node rc l rt h) r) : Int)
          rw [hsz]
          push_cast
          omega
        · exact hsz
  · intro n hs hv
    obtain ⟨l₁, l₂, he, hd, _, _, _, hcnt⟩ := deleteNode_success t k v hbst n hs hv
    have hlen1 : size t.root = l₁.length + l₂.length + 1 := by
      simp [size, he]
      omega
    have hlen2 : size (t.deleteNode k v).root = l₁.length + l₂.length := by
      simp [size, hd]
    constructor
    · rw [hcnt, hcount, hlen1, hlen2]
      push_cast
      omega
    · omega

/-- C6 witness: the preservation law applied to the singleton tree holding
`("b", 2)`: inserting fresh key `"a"` and deleting `("b", 2)`. -/
theorem nodeCount_preserved_witness :
    (((AVLTree.empty.insert ⟨"b", 2⟩).insert ⟨"a", 1⟩).nodeCount
        = (size ((AVLTree.empty.insert ⟨"b", 2⟩).insert ⟨"a", 1⟩).root : Int) ∧
      size ((AVLTree.empty.insert ⟨"b", 2⟩).insert ⟨"a", 1⟩).root
        = size (AVLTree.empty.insert ⟨"b", 2⟩).root + 1) ∧
    ((AVLTree.empty.insert ⟨"b", 2⟩).deleteNode "b" 2).nodeCount
        = (size ((AVLTree.empty.insert ⟨"b", 2⟩).deleteNode "b" 2).root : Int) ∧
      size ((AVLTree.empty.insert ⟨"b", 2⟩).deleteNode "b" 2).root + 1
        = size (AVLTree.empty.insert ⟨"b", 2⟩).root :=
  ⟨(nodeCount_preserved (AVLTree.empty.insert ⟨"b", 2⟩) ⟨"a", 1⟩ "b" 2 (by decide)
      (by decide)).1 (by decide),
    (nodeCount_preserved (AVLTree.empty.insert ⟨"b", 2⟩) ⟨"a", 1⟩ "b" 2 (by decide)
      (by decide)).2 (.node ⟨"b", 2⟩ .nil .nil 1) (by decide) (by decide)⟩

/-- C7: the code never counts comparisons during a search: on the database
holding only `("a", 1)` (built from empty by one insert), the search for
`"a"` performs 2 key comparisons, yet `getSearchComparisons` returns 1 —
the value the counter got from the empty-root branch of `insert`, which is
also the only place the counter ever changes. -/
theorem searchComparisons_never_recorded :
    (IndexedDatabase.mk (AVLTree.empty.insert ⟨"a", 1⟩)).getSearchComparisons "a" 0 = 1 ∧
    descentComparisons (AVLTree.empty.insert ⟨"a", 1⟩).root "a" = 2 ∧
    AVLTree.empty.searchComparisonCount = 0 ∧
    ((AVLTree.empty.insert ⟨"a", 1⟩).searchSt "a" 0).2.searchComparisonCount = 1 := by
  decide

/-- C8: `rangeQuery` returns exactly the sequence collected by the
spec's decision rule: left child iff `value > start`, append iff
`start ≤ value ≤ end`, right child iff `value < end`. -/
theorem rangeQuery_matches_spec_rule (db : IndexedDatabase) (start stop : Int) :
    db.rangeQuery start stop = specRangeRule db.index.root start stop := by
  unfold IndexedDatabase.rangeQuery
  rw [rangeQueryHelper_eq]
  simp

/-- C2 counterexample: in the tree built by `insert ("b",5); insert ("a",10)`
the record `("a", 10)` lies in the closed range `[10, 10]` but
`rangeQuery 10 10` returns nothing — the value-based pruning skipped the
left subtree of the key-ordered tree. -/
theorem rangeQuery_misses_inrange_record :
    Record.mk "a" 10 ∈
      inorder (IndexedDatabase.mk ((AVLTree.empty.insert ⟨"b", 5⟩).insert ⟨"a", 10⟩)).index.root ∧
    (10 : Int) ≤ (Record.mk "a" 10).value ∧ (Record.mk "a" 10).value ≤ (10 : Int) ∧
    Record.mk "a" 10 ∉
      (IndexedDatabase.mk ((AVLTree.empty.insert ⟨"b", 5⟩).insert ⟨"a", 10⟩)).rangeQuery 10 10 := by
  decide

/-- C2 amended: `rangeQuery(start, end)` returns only records whose value
lies in `[start, end]`, but not necessarily all of them — the pruning
traversal can miss in-range records (counterexample above). -/
theorem rangeQuery_sound (db : IndexedDatabase) (start stop : Int) (r : Record)
    (h : r ∈ db.rangeQuery start stop) : start ≤ r.value ∧ r.value ≤ stop := by
  unfold IndexedDatabase.rangeQuery at h
  rw [rangeQueryHelper_eq] at h
  exact mem_specRangeRule _ _ _ _ (by simpa using h)

/-- C2 witness: `("b", 5)` is returned by `rangeQuery 0 7` on the two-record
database and indeed lies in `[0, 7]`. -/
theorem rangeQuery_sound_witness :
    Record.mk "b" 5 ∈
      (IndexedDatabase.mk ((AVLTree.empty.insert ⟨"b", 5⟩).insert ⟨"a", 10⟩)).rangeQuery 0 7 ∧
    (0 : Int) ≤ (Record.mk "b" 5).value ∧ (Record.mk "b" 5).value ≤ (7 : Int) :=
  ⟨by decide,
    rangeQuery_sound (IndexedDatabase.mk ((AVLTree.empty.insert ⟨"b", 5⟩).insert ⟨"a", 10⟩))
      0 7 (Record.mk "b" 5) (by decide)⟩

/-- C9 counterexample: with `("a", 1)` already stored, inserting `("a", 2)`
and then searching key `"a"` returns the old value 1, not the value just
inserted. -/
theorem insert_search_stale_value :
    ((AVLTree.empty.insert ⟨"a", 1⟩).insert ⟨"a", 2⟩).search "a" 2 = ⟨"a", 1⟩ ∧
    (Record.mk "a" 1).value ≠ (2 : Int) := by decide

/-- C9 amended (law L1): on a BST state, after `insert r` a search with
`r`'s key returns a record whose key equals `r.key`; when `r.key` was not
already present the returned record is exactly `r` (value as inserted). -/
theorem insert_then_search (t : AVLTree) (r : Record) (v : Int) (hbst : isBST t.root = true) :
    ((t.insert r).search r.key v).key = r.key ∧
    (r.key ∉ keys t.root → (t.insert r).search r.key v = r) := by
  obtain ⟨root, nc, sc⟩ := t
  cases root with
  | nil =>
      constructor
      · simp [AVLTree.insert, AVLTree.search, AVLTree.searchSt, searchHelper, recOf]
      · intro _
        simp [AVLTree.insert, AVLTree.search, AVLTree.searchSt, searchHelper, recOf]
  | node rc l rt h =>
      have hbst' := isBST_insertHelper (AVLNode.node rc l rt h) r hbst
      by_cases hf : r.key ∈ keys (AVLNode.node rc l rt h)
      · obtain ⟨s, hsmem, hskey⟩ := List.mem_map.mp hf
        have hsmem' := mem_insertHelper (AVLNode.node rc l rt h) r s hsmem
        have hkmem : r.key ∈ keys (insertHelper (AVLNode.node rc l rt h) r) :=
          List.mem_map.mpr ⟨s, hsmem', hskey⟩
        obtain ⟨n, hn⟩ := searchHelper_isSome _ r.key v hbst' hkmem
        obtain ⟨hnmem, hnkey⟩ := searchHelper_some _ _ _ _ hn
        constructor
        · simp only [AVLTree.insert, AVLTree.search, AVLTree.searchSt, hn]
          exact hnkey
        · intro hfresh
          exact absurd hf hfresh
      · have hrmem := self_mem_insertHelper (AVLNode.node rc l rt h) r hf
        have hkmem : r.key ∈ keys (insertHelper (AVLNode.node rc l rt h) r) :=
          List.mem_map.mpr ⟨r, hrmem, rfl⟩
        obtain ⟨n, hn⟩ := searchHelper_isSome _ r.key v hbst' hkmem
        obtain ⟨hnmem, hnkey⟩ := searchHelper_some _ _ _ _ hn
        have hrn : recOf n = r :=
          sorted_key_unique ((isBST_iff _).mp hbst') _ hnmem _ hrmem (by rw [hnkey])
        constructor
        · simp only [AVLTree.insert, AVLTree.search, AVLTree.searchSt, hn]
          exact hnkey
        · intro _
          simp only [AVLTree.insert, AVLTree.search, AVLTree.searchSt, hn]
          exact hrn

/-- C9 witness: inserting fresh key `"a"` into the singleton tree holding
`("b", 2)` and searching `"a"` returns exactly the inserted record. -/
theorem insert_then_search_witness :
    (((AVLTree.empty.insert ⟨"b", 2⟩).insert ⟨"a", 1⟩).search "a" 0).key = "a" ∧
    ((AVLTree.empty.insert ⟨"b", 2⟩).insert ⟨"a", 1⟩).search "a" 0 = ⟨"a", 1⟩ :=
  ⟨(insert_then_search (AVLTree.empty.insert ⟨"b", 2⟩) ⟨"a", 1⟩ 0 (by decide)).1,
    (insert_then_search (AVLTree.empty.insert ⟨"b", 2⟩) ⟨"a", 1⟩ 0 (by decide)).2 (by decide)⟩

/-- C10: `clearDatabase` sets the root to absent but leaves `nodeCount` at
its prior value (it is not reset to zero). -/
theorem clearDatabase_keeps_nodeCount (db : IndexedDatabase) :
    (db.clearDatabase).index.root = AVLNode.nil ∧
    (db.clearDatabase).index.nodeCount = db.index.nodeCount :=
  ⟨rfl, rfl⟩

/-- C1 counterexample: starting from the empty tree, seven balanced inserts
plus two more and one `deleteNode` (which rebalances only at the root)
produce a node whose child heights differ by 2 — the height-balance
invariant does not survive deletion. -/
theorem deleteNode_breaks_balance :
    balancedReal
      ((((((((((AVLTree.empty.insert ⟨"f", 1⟩).insert ⟨"d", 1⟩).insert ⟨"h", 1⟩).insert
        ⟨"b", 1⟩).insert ⟨"e", 1⟩).insert ⟨"g", 1⟩).insert ⟨"i", 1⟩).insert ⟨"a", 1⟩).insert
        ⟨"c", 1⟩).deleteNode "e" 1).root = false := by decide

/-- C1 amended: `insert` preserves the height-balance invariant (together
with correct cached heights), so the invariant holds after any sequence of
inserts and `clearDatabase` calls; `deleteNode`, which rebalances only at
the root, does not preserve it (counterexample above). -/
theorem insert_preserves_avl (t : AVLTree) (r : Record) (h : isAVL t.root = true) :
    isAVL ((t.insert r).root) = true := by
  obtain ⟨root, nc, sc⟩ := t
  cases root with
  | nil =>
      simp [AVLTree.insert, isAVL, balancedReal, heightsOK, calculateHeight]
  | node rc l rt ht =>
      exact (insertHelper_avl r (AVLNode.node rc l rt ht) h).1

/-- C1 witness: the singleton tree holding `("b", 2)` is AVL, and inserting
`("a", 1)` keeps it AVL. -/
theorem insert_preserves_avl_witness :
    isAVL (AVLTree.empty.insert ⟨"b", 2⟩).root = true ∧
    isAVL ((AVLTree.empty.insert ⟨"b", 2⟩).insert ⟨"a", 1⟩).root = true :=
  ⟨by decide, insert_preserves_avl (AVLTree.empty.insert ⟨"b", 2⟩) ⟨"a", 1⟩ (by decide)⟩

end AVLDB
